import Mathlib

/-!
Verification of the anime/manga recommendation engine: a shallow embedding of
the retrieval-and-ranking core (engine/hybrid_ranker.py, engine/recommender.py,
engine/text_builder.py, config.py) together with proofs of the specified
properties of normalization, genre overlap, hybrid ranking, candidate
retrieval and title resolution.

Modelling conventions:
- numeric scores are embedded as rationals (the Python computations at issue
  are exact divisions and linear combinations);
- Python dict lookups with optional keys become Option fields; `d.get(k, v)`
  is `Option.getD`, `d[k]` is a match that raises (Except.error) on none;
- Python exceptions become `Except PyError`;
- the external collaborators (FAISS vector index, sentence-transformer
  embedding provider) are parameters: an index is any function from a query
  vector and a requested count to a list of (position, score) pairs, an
  embedding provider is any function from text to a vector. The L2
  normalization that the retriever applies to the query vector before
  searching is folded into the abstract index parameter;
- Python's stable `sorted(..., reverse=True)` is embedded as `List.mergeSort`
  with the reversed comparison, which has the same stable-descending
  semantics.
-/

namespace AnimeRec

/-- Scores (semantic similarity, popularity, rating, totals) as rationals. -/
abbrev Score := ℚ

/-- A corpus document, as stored in the document store.  Optional fields model
dict keys that may be absent. -/
structure Document where
  title_romaji : Option String := none
  title_english : Option String := none
  description : Option String := none
  genres : List String := []
  tags : List String := []
  popularity : Option Score := none
  average_score : Option Score := none
deriving Repr, DecidableEq

/-- A retrieval candidate: the dict built by `Recommender._search_similar`
(and consumed by `rank_candidates`).  Every score key may in principle be
absent, hence Option fields. -/
structure Candidate where
  doc : Document
  semantic : Option Score := none
  genres : Option (List String) := none
  popularity : Option Score := none
  rating : Option Score := none
deriving Repr, DecidableEq

/-- The four ranking weights from config.py. -/
structure Weights where
  semantic : Score
  genre_overlap : Score
  popularity : Score
  rating : Score
deriving Repr, DecidableEq

/-- config.py: SEMANTIC_WEIGHT = 0.65, GENRE_OVERLAP_WEIGHT = 0.20,
POPULARITY_WEIGHT = 0.10, RATING_WEIGHT = 0.05. -/
def config_weights : Weights :=
  { semantic := 65/100, genre_overlap := 20/100,
    popularity := 10/100, rating := 5/100 }

/-- config.py: DEFAULT_SEARCH_K = 50. -/
def DEFAULT_SEARCH_K : Int := 50

/-- Python exceptions that the embedded code can raise. -/
inductive PyError where
  | indexError : PyError
  | keyError : String → PyError
  | notFound : String → PyError
deriving Repr, DecidableEq

/-- hybrid_ranker.normalize_values: min-max normalization of a list of values,
as performed by sklearn's MinMaxScaler.  The scaler computes the data minimum
and maximum, and replaces a zero range by 1 (its handling of constant
columns), so a constant list maps to all zeros. -/
def normalize_values (values : List Score) : List Score :=
  match values with
  | [] => []
  | v :: vs =>
    let data_min := vs.foldl min v
    let data_max := vs.foldl max v
    let data_range := if data_max - data_min = 0 then 1 else data_max - data_min
    (v :: vs).map (fun x => (x - data_min) / data_range)

/-- hybrid_ranker.calculate_genre_overlap: Jaccard similarity of the two genre
lists viewed as sets, with an early 0.0 return when either list is empty. -/
def calculate_genre_overlap (genres_a genres_b : List String) : Score :=
  if genres_a = [] ∨ genres_b = [] then 0
  else
    let set_a := genres_a.toFinset
    let set_b := genres_b.toFinset
    let intersection := (set_a ∩ set_b).card
    let union := (set_a ∪ set_b).card
    if union > 0 then (intersection : Score) / (union : Score) else 0

/-- Spec-side definition of genre overlap, written from the specification's
words: the Jaccard similarity |A∩B| / |A∪B| of the corresponding sets,
defined as 0.0 whenever either list is empty. -/
def jaccard_spec (genres_a genres_b : List String) : Score :=
  if genres_a = [] ∨ genres_b = [] then 0
  else ((genres_a.toFinset ∩ genres_b.toFinset).card : Score) /
       ((genres_a.toFinset ∪ genres_b.toFinset).card : Score)

/-- The body of the ranking loop in `rank_candidates`: one candidate zipped
with its normalized popularity and rating.  `candidate["semantic"]` is a
direct dict index and raises KeyError when the key is absent; the genre list
is read with `.get("genres", [])`. -/
def score_loop (w : Weights) (reference_genres : List String) :
    List (Candidate × Score × Score) → Except PyError (List (Score × Document))
  | [] => .ok []
  | (c, pop_norm, rating_norm) :: rest =>
    match c.semantic with
    | none => .error (.keyError "semantic")
    | some s =>
      match score_loop w reference_genres rest with
      | .error e => .error e
      | .ok tail =>
        .ok ((w.semantic * s
          + w.genre_overlap * calculate_genre_overlap reference_genres (c.genres.getD [])
          + w.popularity * pop_norm
          + w.rating * rating_norm, c.doc) :: tail)

/-- The unsorted (score, document) list that `rank_candidates` builds before
sorting: scores extracted with defaults, popularity and rating min-max
normalized, then the weighted combination per candidate. -/
def score_candidates (w : Weights) (candidates : List Candidate)
    (reference_genres : List String) : Except PyError (List (Score × Document)) :=
  let popularity_scores := candidates.map (fun c => c.popularity.getD 0)
  let rating_scores := candidates.map (fun c => c.rating.getD 0)
  let normalized_popularity := normalize_values popularity_scores
  let normalized_rating := normalize_values rating_scores
  score_loop w reference_genres
    (candidates.zip (normalized_popularity.zip normalized_rating))

/-- hybrid_ranker.rank_candidates: empty input short-circuits to []; otherwise
score every candidate and sort descending by total score with Python's stable
sort (sorted with reverse=True, embedded as mergeSort on the reversed
comparison). -/
def rank_candidates (w : Weights) (candidates : List Candidate)
    (reference_genres : List String) : Except PyError (List (Score × Document)) :=
  if candidates = [] then .ok []
  else
    match score_candidates w candidates reference_genres with
    | .error e => .error e
    | .ok ranked => .ok (ranked.mergeSort (fun x y => decide (y.1 ≤ x.1)))

/-- The characters removed by Python's str.strip(). -/
def python_isspace (c : Char) : Bool :=
  c = ' ' || c = '\t' || c = '\n' || c = '\r' || c = '\x0B' || c = '\x0C'

/-- `not s.strip()` in Python: the string is empty or all whitespace. -/
def is_blank (s : String) : Bool := s.data.all python_isspace

/-- Python str.lower(), mapping each character to lower case. -/
def py_lower (s : String) : String := ⟨s.data.map Char.toLower⟩

/-- Python's substring test `needle in haystack`. -/
def py_in (needle haystack : String) : Bool :=
  decide (needle.data <:+: haystack.data)

/-- Python list indexing `l[i]`: non-negative indices from the front,
negative indices from the end; out of range is an IndexError (none). -/
def python_get {α : Type} (l : List α) (i : Int) : Option α :=
  if 0 ≤ i then l[i.toNat]?
  else if -(l.length : Int) ≤ i then l[((l.length : Int) + i).toNat]?
  else none

/-- The loop of `Recommender._search_similar` over the (position, score)
pairs returned by the index: keep a pair only when its position is below the
corpus length, and resolve the kept position by Python list indexing into the
document list, building the candidate dict. -/
def gather_candidates (documents : List Document) :
    List (Int × Score) → Except PyError (List Candidate)
  | [] => .ok []
  | (idx, score) :: rest =>
    if idx < (documents.length : Int) then
      match python_get documents idx with
      | none => .error .indexError
      | some doc =>
        match gather_candidates documents rest with
        | .error e => .error e
        | .ok tail =>
          .ok ({ doc := doc, semantic := some score,
                 genres := some doc.genres,
                 popularity := some (doc.popularity.getD 0),
                 rating := some (doc.average_score.getD 0) } :: tail)
    else gather_candidates documents rest

/-- Recommender._search_similar: ask the index for min(k, corpus size)
nearest neighbours and join the returned positions back to documents.  The
index is an abstract parameter (query vector, requested count ↦ list of
(position, score) pairs). -/
def search_similar (documents : List Document)
    (index_search : List Score → Int → List (Int × Score))
    (query_vector : List Score) (k : Int) : Except PyError (List Candidate) :=
  gather_candidates documents
    (index_search query_vector (min k (documents.length : Int)))

/-- The recommendation engine: the loaded corpus plus the two external
collaborators (embedding provider and vector index). -/
structure Engine where
  documents : List Document
  encode : String → List Score
  index_search : List Score → Int → List (Int × Score)

/-- text_builder.build_text: join title_romaji, title_english, space-joined
genres, space-joined tags and description with single spaces, dropping empty
parts. -/
def build_text (doc : Document) : String :=
  let parts := [doc.title_romaji.getD "", doc.title_english.getD "",
    String.intercalate " " doc.genres, String.intercalate " " doc.tags,
    doc.description.getD ""]
  String.intercalate " " (parts.filter (fun s => s ≠ ""))

/-- The reference-document search loop of `Recommender.by_title`: the first
document whose lowercased romaji or english title contains the lowercased
query, an absent title being read as the empty string. -/
def find_reference_doc (title : String) (documents : List Document) :
    Option Document :=
  documents.find? (fun doc =>
    py_in (py_lower title) (py_lower (doc.title_romaji.getD "")) ||
    py_in (py_lower title) (py_lower (doc.title_english.getD "")))

/-- Spec-side matching rule for title resolution, from the specification's
words: the lowercase query is a substring of the lowercase title_romaji or of
the lowercase title_english, skipping whichever field is absent. -/
def title_matches_spec (title : String) (doc : Document) : Bool :=
  (match doc.title_romaji with
   | some t => py_in (py_lower title) (py_lower t)
   | none => false) ||
  (match doc.title_english with
   | some t => py_in (py_lower title) (py_lower t)
   | none => false)

/-- Recommender.by_text: blank query short-circuits to []; otherwise embed
the query, retrieve candidates with the default k, rank with no reference
genres, and truncate to n. -/
def by_text (e : Engine) (query : String) (n : Nat) :
    Except PyError (List (Score × Document)) :=
  if is_blank query then .ok []
  else
    match search_similar e.documents e.index_search (e.encode query)
        DEFAULT_SEARCH_K with
    | .error err => .error err
    | .ok candidates =>
      match rank_candidates config_weights candidates [] with
      | .error err => .error err
      | .ok ranked => .ok (ranked.take n)

/-- Recommender.by_title: blank title short-circuits to []; no substring
match raises ValueError carrying the title (modelled as notFound); otherwise
embed the reference text, retrieve, rank with the reference genres, truncate
to n. -/
def by_title (e : Engine) (title : String) (n : Nat) :
    Except PyError (List (Score × Document)) :=
  if is_blank title then .ok []
  else
    match find_reference_doc title e.documents with
    | none => .error (.notFound title)
    | some reference_doc =>
      match search_similar e.documents e.index_search
          (e.encode (build_text reference_doc)) DEFAULT_SEARCH_K with
      | .error err => .error err
      | .ok candidates =>
        match rank_candidates config_weights candidates reference_doc.genres with
        | .error err => .error err
        | .ok ranked => .ok (ranked.take n)

/-- The comparison passed to the stable sort in `rank_candidates`:
descending by total score. -/
def rank_le (x y : Score × Document) : Bool := decide (y.1 ≤ x.1)

/-- A sample document with a romaji title. -/
def doc_a : Document :=
  { title_romaji := some "Naruto", genres := ["Action"] }

/-- A sample document with only an english title. -/
def doc_b : Document :=
  { title_english := some "Bleach" }

/-- A sample candidate carrying a semantic score. -/
def cand_a : Candidate := { doc := doc_a, semantic := some 1 }

/-- A second sample candidate carrying the same semantic score. -/
def cand_b : Candidate := { doc := doc_b, semantic := some 1 }

/-- A sample candidate whose dict has no "semantic" key. -/
def cand_no_sem : Candidate := { doc := doc_a }

/-- A sample engine whose external collaborators return nothing. -/
def engine_a : Engine := ⟨[doc_a, doc_b], fun _ => [], fun _ _ => []⟩

/-- A sample vector index obeying the kNN contract: a non-positive request or
an empty query yields no neighbours. -/
def index_oracle : List Score → Int → List (Int × Score) :=
  fun q j => if j ≤ 0 ∨ q = [] then [] else [(0, 1)]

/-- A sample vector index returning the -1 sentinel position and an
out-of-range position. -/
def index_oracle_neg : List Score → Int → List (Int × Score) :=
  fun _ _ => [(-1, 1/2), (5, 1)]

theorem foldl_min_le_init (l : List Score) (a : Score) : l.foldl min a ≤ a := by
  induction l generalizing a with
  | nil => simp
  | cons b l ih =>
    simp only [List.foldl_cons]
    exact le_trans (ih (min a b)) (min_le_left a b)

theorem foldl_min_le_mem (l : List Score) (a : Score) :
    ∀ x ∈ l, l.foldl min a ≤ x := by
  induction l generalizing a with
  | nil => simp
  | cons b l ih =>
    intro x hx
    simp only [List.foldl_cons]
    rcases List.mem_cons.mp hx with rfl | hx
    · exact le_trans (foldl_min_le_init l (min a x)) (min_le_right a x)
    · exact ih (min a b) x hx

theorem init_le_foldl_max (l : List Score) (a : Score) : a ≤ l.foldl max a := by
  induction l generalizing a with
  | nil => simp
  | cons b l ih =>
    simp only [List.foldl_cons]
    exact le_trans (le_max_left a b) (ih (max a b))

theorem mem_le_foldl_max (l : List Score) (a : Score) :
    ∀ x ∈ l, x ≤ l.foldl max a := by
  induction l generalizing a with
  | nil => simp
  | cons b l ih =>
    intro x hx
    simp only [List.foldl_cons]
    rcases List.mem_cons.mp hx with rfl | hx
    · exact le_trans (le_max_right a x) (init_le_foldl_max l (max a x))
    · exact ih (max a b) x hx

theorem foldl_min_const (l : List Score) (a : Score) (h : ∀ x ∈ l, x = a) :
    l.foldl min a = a := by
  induction l with
  | nil => rfl
  | cons b l ih =>
    have hb : b = a := h b (List.mem_cons_self b l)
    simp only [List.foldl_cons, hb, min_self]
    exact ih (fun x hx => h x (List.mem_cons_of_mem b hx))

theorem foldl_max_const (l : List Score) (a : Score) (h : ∀ x ∈ l, x = a) :
    l.foldl max a = a := by
  induction l with
  | nil => rfl
  | cons b l ih =>
    have hb : b = a := h b (List.mem_cons_self b l)
    simp only [List.foldl_cons, hb, max_self]
    exact ih (fun x hx => h x (List.mem_cons_of_mem b hx))

theorem normalize_values_length (values : List Score) :
    (normalize_values values).length = values.length := by
  match values with
  | [] => rfl
  | v :: vs => simp [normalize_values]

theorem score_loop_ok_length (w : Weights) (g : List String)
    (l : List (Candidate × Score × Score)) (out : List (Score × Document))
    (h : score_loop w g l = .ok out) : out.length = l.length := by
  induction l generalizing out with
  | nil => simp only [score_loop] at h; cases h; rfl
  | cons x rest ih =>
    obtain ⟨c, pop_norm, rating_norm⟩ := x
    simp only [score_loop] at h
    cases hc : c.semantic with
    | none => rw [hc] at h; cases h
    | some s =>
      rw [hc] at h
      cases hrest : score_loop w g rest with
      | error e => rw [hrest] at h; cases h
      | ok tail =>
        rw [hrest] at h
        cases h
        simp [ih tail hrest]

theorem score_candidates_ok_length (w : Weights) (candidates : List Candidate)
    (g : List String) (out : List (Score × Document))
    (h : score_candidates w candidates g = .ok out) :
    out.length = candidates.length := by
  simp only [score_candidates] at h
  have hlen := score_loop_ok_length w g _ out h
  rw [hlen]
  simp [normalize_values_length]

theorem score_loop_error_of_mem (w : Weights) (g : List String)
    (l : List (Candidate × Score × Score))
    (h : ∃ x ∈ l, x.1.semantic = none) :
    score_loop w g l = .error (.keyError "semantic") := by
  induction l with
  | nil => simp at h
  | cons x rest ih =>
    obtain ⟨c, pop_norm, rating_norm⟩ := x
    obtain ⟨y, hy, hnone⟩ := h
    rcases List.mem_cons.mp hy with rfl | hmem
    · have hnone' : c.semantic = none := hnone
      simp only [score_loop, hnone']
    · simp only [score_loop]
      cases hc : c.semantic with
      | none => rfl
      | some s => rw [ih ⟨y, hmem, hnone⟩]

theorem score_loop_ok_of_forall (w : Weights) (g : List String)
    (l : List (Candidate × Score × Score))
    (h : ∀ x ∈ l, x.1.semantic.isSome) :
    ∃ out, score_loop w g l = .ok out := by
  induction l with
  | nil => exact ⟨[], rfl⟩
  | cons x rest ih =>
    obtain ⟨c, pop_norm, rating_norm⟩ := x
    obtain ⟨s, hs⟩ := Option.isSome_iff_exists.mp (h _ (List.mem_cons_self _ _))
    obtain ⟨tail, htail⟩ := ih (fun y hy => h y (List.mem_cons_of_mem _ hy))
    have hs' : c.semantic = some s := hs
    refine ⟨(w.semantic * s
      + w.genre_overlap * calculate_genre_overlap g (c.genres.getD [])
      + w.popularity * pop_norm + w.rating * rating_norm, c.doc) :: tail, ?_⟩
    simp only [score_loop, hs', htail]

theorem mem_zip_of_length_eq {α β : Type} (l₁ : List α) (l₂ : List β)
    (h : l₁.length = l₂.length) (a : α) (ha : a ∈ l₁) :
    ∃ b, (a, b) ∈ l₁.zip l₂ := by
  induction l₁ generalizing l₂ with
  | nil => simp at ha
  | cons x l₁ ih =>
    cases l₂ with
    | nil => simp at h
    | cons y l₂ =>
      rcases List.mem_cons.mp ha with rfl | hmem
      · exact ⟨y, List.mem_cons_self _ _⟩
      · obtain ⟨b, hb⟩ := ih l₂ (by simpa using h) hmem
        exact ⟨b, List.mem_cons_of_mem _ hb⟩

theorem rank_le_trans : ∀ (a b c : Score × Document),
    rank_le a b → rank_le b c → rank_le a c := by
  intro a b c hab hbc
  simp only [rank_le, decide_eq_true_eq] at *
  exact le_trans hbc hab

theorem rank_le_total : ∀ (a b : Score × Document), rank_le a b || rank_le b a := by
  intro a b
  simp only [rank_le, Bool.or_eq_true, decide_eq_true_eq]
  exact le_total b.1 a.1

theorem py_lower_ne_nil (s : String) (h : is_blank s = false) :
    (py_lower s).data ≠ [] := by
  simp only [py_lower]
  intro hcon
  rw [List.map_eq_nil_iff] at hcon
  rw [is_blank, hcon] at h
  simp at h

theorem py_in_empty_haystack (needle : String) (h : needle.data ≠ []) :
    py_in needle "" = false := by
  simp only [py_in, decide_eq_false_iff_not]
  intro hcon
  exact h (List.eq_nil_of_infix_nil hcon)

theorem python_get_of_bounds {α : Type} (l : List α) (i : Int)
    (h1 : -(l.length : Int) ≤ i) (h2 : i < (l.length : Int)) :
    ∃ a, python_get l i = some a := by
  by_cases h0 : 0 ≤ i
  · rw [python_get, if_pos h0]
    have hlt : i.toNat < l.length := by omega
    exact ⟨l[i.toNat], by simp [List.getElem?_eq_getElem hlt]⟩
  · rw [python_get, if_neg h0, if_pos h1]
    have hlt : ((l.length : Int) + i).toNat < l.length := by omega
    exact ⟨l[((l.length : Int) + i).toNat], by simp [List.getElem?_eq_getElem hlt]⟩

theorem python_get_neg_one {α : Type} (l : List α) :
    python_get l (-1) = l.getLast? := by
  cases l with
  | nil => rfl
  | cons a l =>
    rw [python_get, if_neg (by omega), if_pos (by simp)]
    have hlen : (((a :: l).length : Int) + -1).toNat = (a :: l).length - 1 := by
      omega
    rw [hlen, List.getLast?_eq_getElem?]

theorem gather_candidates_forall (documents : List Document)
    (pairs : List (Int × Score))
    (hpos : ∀ p ∈ pairs, -(documents.length : Int) ≤ p.1) :
    ∃ res, gather_candidates documents pairs = .ok res ∧
      List.Forall₂ (fun (p : Int × Score) (c : Candidate) =>
          python_get documents p.1 = some c.doc ∧ c.semantic = some p.2)
        (pairs.filter (fun p => decide (p.1 < (documents.length : Int)))) res := by
  induction pairs with
  | nil => exact ⟨[], rfl, List.Forall₂.nil⟩
  | cons hd rest ih =>
    obtain ⟨idx, score⟩ := hd
    obtain ⟨res, hres, hfa⟩ := ih (fun p hp => hpos p (List.mem_cons_of_mem _ hp))
    by_cases hlt : idx < (documents.length : Int)
    · obtain ⟨doc, hdoc⟩ := python_get_of_bounds documents idx
        (hpos _ (List.mem_cons_self _ _)) hlt
      refine ⟨(Candidate.mk doc (some score) (some doc.genres)
          (some (doc.popularity.getD 0)) (some (doc.average_score.getD 0))) :: res,
          ?_, ?_⟩
      · simp only [gather_candidates, if_pos hlt, hdoc, hres]
      · rw [List.filter_cons_of_pos (by simpa using hlt)]
        exact List.Forall₂.cons ⟨hdoc, rfl⟩ hfa
    · refine ⟨res, ?_, ?_⟩
      · simp only [gather_candidates, if_neg hlt, hres]
      · rw [List.filter_cons_of_neg (by simpa using hlt)]
        exact hfa

/-- Claim C1: normalize_values min-max rescales every list into [0, 1]; in the
degenerate all-equal case every normalized value is 0.0; and on [1,2,3,4,5]
the first element is 0.0 and the last is 1.0, while [5,5,5] maps to all
zeros. -/
theorem C1_normalize_minmax :
    (∀ values : List Score, ∀ x ∈ normalize_values values, 0 ≤ x ∧ x ≤ 1) ∧
    (∀ values : List Score, (∀ x ∈ values, ∀ y ∈ values, x = y) →
      ∀ z ∈ normalize_values values, z = 0) ∧
    (normalize_values [1, 2, 3, 4, 5]).head? = some 0 ∧
    (normalize_values [1, 2, 3, 4, 5]).getLast? = some 1 ∧
    normalize_values [5, 5, 5] = [0, 0, 0] := by
  refine ⟨?_, ?_, ?_, ?_, ?_⟩
  · intro values x hx
    match values with
    | [] => simp [normalize_values] at hx
    | v :: vs =>
      simp only [normalize_values] at hx
      obtain ⟨y, hy, rfl⟩ := List.mem_map.mp hx
      have hmn : vs.foldl min v ≤ y := by
        rcases List.mem_cons.mp hy with rfl | hmem
        · exact foldl_min_le_init vs y
        · exact foldl_min_le_mem vs v y hmem
      have hmx : y ≤ vs.foldl max v := by
        rcases List.mem_cons.mp hy with rfl | hmem
        · exact init_le_foldl_max vs y
        · exact mem_le_foldl_max vs v y hmem
      by_cases hd : vs.foldl max v - vs.foldl min v = 0
      · have hy0 : y = vs.foldl min v := le_antisymm (by linarith) hmn
        rw [if_pos hd, hy0]
        norm_num
      · have hlt : 0 < vs.foldl max v - vs.foldl min v :=
          lt_of_le_of_ne (by linarith [le_trans hmn hmx]) (Ne.symm hd)
        rw [if_neg hd]
        constructor
        · exact div_nonneg (by linarith) (le_of_lt hlt)
        · rw [div_le_one hlt]
          linarith
  · intro values hconst z hz
    match values with
    | [] => simp [normalize_values] at hz
    | v :: vs =>
      have hall : ∀ x ∈ vs, x = v := fun x hx =>
        hconst x (List.mem_cons_of_mem v hx) v (List.mem_cons_self v vs)
      simp only [normalize_values, foldl_min_const vs v hall,
        foldl_max_const vs v hall, sub_self, if_pos] at hz
      obtain ⟨y, hy, rfl⟩ := List.mem_map.mp hz
      have hyv : y = v := by
        rcases List.mem_cons.mp hy with rfl | hmem
        · rfl
        · exact hall y hmem
      rw [hyv]
      norm_num
  · norm_num [normalize_values]
  · norm_num [normalize_values, List.getLast?]
  · norm_num [normalize_values]

/-- Claim C2: rank_candidates sorts descending by total score with a stable
sort: the output is pairwise nonincreasing in the score, and restricting the
output to any fixed total score yields exactly the corresponding slice of the
pre-sort list, i.e. equal-score candidates keep their input order. -/
theorem C2_rank_stable_sorted (w : Weights) (candidates : List Candidate)
    (reference_genres : List String) (scored : List (Score × Document))
    (hs : score_candidates w candidates reference_genres = .ok scored) :
    ∃ out, rank_candidates w candidates reference_genres = .ok out ∧
      List.Pairwise (fun x y : Score × Document => y.1 ≤ x.1) out ∧
      ∀ s : Score, out.filter (fun p => decide (p.1 = s)) =
        scored.filter (fun p => decide (p.1 = s)) := by
  by_cases hc : candidates = []
  · subst hc
    have hnil : scored = [] := by
      simp only [score_candidates, List.zip_nil_left, score_loop] at hs
      cases hs
      rfl
    subst hnil
    exact ⟨[], by simp [rank_candidates], List.Pairwise.nil, fun s => rfl⟩
  · refine ⟨scored.mergeSort rank_le, ?_, ?_, ?_⟩
    · simp only [rank_candidates, if_neg hc, hs]
      rfl
    · exact (List.sorted_mergeSort rank_le_trans rank_le_total scored).imp
        (fun h => of_decide_eq_true h)
    · intro s
      set P : Score × Document → Bool := fun p => decide (p.1 = s) with hP
      have hA_mem : ∀ x ∈ scored.filter P, P x = true := fun x hx =>
        (List.mem_filter.mp hx).2
      have hA_pw : (scored.filter P).Pairwise (fun x y => rank_le x y = true) := by
        apply List.pairwise_of_forall_mem_list
        intro x hx y hy
        have hxs : x.1 = s := of_decide_eq_true (hA_mem x hx)
        have hys : y.1 = s := of_decide_eq_true (hA_mem y hy)
        simp [rank_le, hxs, hys]
      have hsub : List.Sublist (scored.filter P) (scored.mergeSort rank_le) :=
        List.sublist_mergeSort rank_le_trans rank_le_total hA_pw
          (List.filter_sublist scored)
      have hBA : List.Sublist (scored.filter P)
          ((scored.mergeSort rank_le).filter P) := by
        have h2 := hsub.filter P
        rwa [List.filter_eq_self.mpr hA_mem] at h2
      have hperm : ((scored.mergeSort rank_le).filter P).Perm (scored.filter P) :=
        (List.mergeSort_perm scored rank_le).filter P
      exact (List.Sublist.eq_of_length hBA hperm.length_eq.symm).symm

/-- Witness for C2 at a concrete two-candidate tie. -/
theorem C2_rank_stable_sorted_witness :
    ∃ out, rank_candidates config_weights [cand_a, cand_b] [] = .ok out ∧
      List.Pairwise (fun x y : Score × Document => y.1 ≤ x.1) out ∧
      ∀ s : Score, out.filter (fun p => decide (p.1 = s)) =
        [((13 : Score)/20, doc_a), ((13 : Score)/20, doc_b)].filter
          (fun p => decide (p.1 = s)) :=
  C2_rank_stable_sorted config_weights [cand_a, cand_b] []
    [((13 : Score)/20, doc_a), ((13 : Score)/20, doc_b)]
    (by norm_num [score_candidates, score_loop, normalize_values,
      calculate_genre_overlap, config_weights, cand_a, cand_b])

/-- Claim C3: for a non-blank query, title resolution returns the first
document in store order matched by the spec rule (lowercase query a substring
of the lowercase romaji or english title, an absent field skipped and never
matched), and any returned document is preceded only by non-matching ones. -/
theorem C3_title_resolution (title : String) (documents : List Document)
    (h : is_blank title = false) :
    find_reference_doc title documents =
      documents.find? (title_matches_spec title) ∧
    ∀ d, find_reference_doc title documents = some d →
      title_matches_spec title d = true ∧
      ∃ pre post, documents = pre ++ d :: post ∧
        ∀ d' ∈ pre, title_matches_spec title d' = false := by
  have hne : (py_lower title).data ≠ [] := py_lower_ne_nil title h
  have hfun : (fun doc => py_in (py_lower title) (py_lower (doc.title_romaji.getD "")) ||
      py_in (py_lower title) (py_lower (doc.title_english.getD ""))) =
      title_matches_spec title := by
    funext doc
    have hemp : py_in (py_lower title) (py_lower "") = false := by
      have hpl : py_lower "" = "" := rfl
      rw [hpl]
      exact py_in_empty_haystack _ hne
    cases hr : doc.title_romaji <;> cases he : doc.title_english <;>
      simp [title_matches_spec, hr, he, hemp]
  have hfind : find_reference_doc title documents =
      documents.find? (title_matches_spec title) := by
    rw [find_reference_doc, hfun]
  refine ⟨hfind, ?_⟩
  intro d hd
  rw [hfind] at hd
  obtain ⟨hp, pre, post, heq, hpre⟩ := List.find?_eq_some.mp hd
  exact ⟨hp, pre, post, heq, fun d' hd' => by
    have hnp := hpre d' hd'
    simpa using hnp⟩

/-- Witness for C3 at a concrete query over a two-document store. -/
theorem C3_title_resolution_witness :
    find_reference_doc "naruto" [doc_a, doc_b] =
      [doc_a, doc_b].find? (title_matches_spec "naruto") ∧
    ∀ d, find_reference_doc "naruto" [doc_a, doc_b] = some d →
      title_matches_spec "naruto" d = true ∧
      ∃ pre post, [doc_a, doc_b] = pre ++ d :: post ∧
        ∀ d' ∈ pre, title_matches_spec "naruto" d' = false :=
  C3_title_resolution "naruto" [doc_a, doc_b] (by decide)

/-- Claim C4: the retriever asks the index for min(k, corpus size)
neighbours, so an oversized k is silently clamped; and under the index
contract (no neighbours for a non-positive request or an empty query
vector), k ≤ 0 or an empty query vector yields an empty result, not an
error. -/
theorem C4_k_clamped (documents : List Document)
    (index_search : List Score → Int → List (Int × Score))
    (query_vector : List Score) (k : Int)
    (hk : ∀ (q : List Score) (j : Int), j ≤ 0 → index_search q j = [])
    (hq : ∀ j : Int, index_search [] j = []) :
    search_similar documents index_search query_vector k =
      search_similar documents index_search query_vector
        (min k (documents.length : Int)) ∧
    (k ≤ 0 → search_similar documents index_search query_vector k = .ok []) ∧
    (query_vector = [] →
      search_similar documents index_search query_vector k = .ok []) := by
  refine ⟨?_, ?_, ?_⟩
  · simp only [search_similar, min_assoc, min_self]
  · intro hk0
    have hmin : min k (documents.length : Int) ≤ 0 :=
      le_trans (min_le_left _ _) hk0
    simp only [search_similar, hk _ _ hmin, gather_candidates]
  · intro hqv
    subst hqv
    simp only [search_similar, hq, gather_candidates]

/-- Witness for C4 with a concrete contract-abiding index and oversized k. -/
theorem C4_k_clamped_witness :
    search_similar [doc_a] index_oracle [1] 100 =
      search_similar [doc_a] index_oracle [1]
        (min 100 (([doc_a] : List Document).length : Int)) ∧
    ((100 : Int) ≤ 0 → search_similar [doc_a] index_oracle [1] 100 = .ok []) ∧
    (([1] : List Score) = [] →
      search_similar [doc_a] index_oracle [1] 100 = .ok []) :=
  C4_k_clamped [doc_a] index_oracle [1] 100
    (fun q j hj => by simp [index_oracle, hj])
    (fun j => by simp [index_oracle])

/-- Claim C5: a non-blank title with no substring match makes by_title fail
with the NotFound error carrying the queried title. -/
theorem C5_not_found_error (e : Engine) (title : String) (n : Nat)
    (hb : is_blank title = false)
    (h : find_reference_doc title e.documents = none) :
    by_title e title n = .error (.notFound title) := by
  simp only [by_title, hb, Bool.false_eq_true, if_false, h]

/-- Witness for C5 at a concrete unmatched title. -/
theorem C5_not_found_error_witness :
    by_title engine_a "zzz" 5 = .error (.notFound "zzz") :=
  C5_not_found_error engine_a "zzz" 5 (by decide) (by decide)

/-- Claim C6: a blank (whitespace-only) input makes both by_text and
by_title return an empty sequence without error, for every engine — in
particular independently of the embedding provider and the vector index. -/
theorem C6_blank_inputs (s : String) (h : is_blank s = true)
    (e : Engine) (n : Nat) :
    by_text e s n = .ok [] ∧ by_title e s n = .ok [] := by
  constructor
  · simp only [by_text, h, if_true]
  · simp only [by_title, h, if_true]

/-- Witness for C6 at a concrete whitespace-only string. -/
theorem C6_blank_inputs_witness :
    by_text engine_a " " 3 = .ok [] ∧ by_title engine_a " " 3 = .ok [] :=
  C6_blank_inputs " " (by decide) engine_a 3

/-- Claim C7: whenever rank_candidates returns a result, it has exactly the
length of the input candidate list, for every weight configuration. -/
theorem C7_rank_length (w : Weights) (candidates : List Candidate)
    (reference_genres : List String) (out : List (Score × Document))
    (h : rank_candidates w candidates reference_genres = .ok out) :
    out.length = candidates.length := by
  by_cases hc : candidates = []
  · subst hc
    simp only [rank_candidates, if_pos rfl] at h
    cases h
    rfl
  · simp only [rank_candidates, if_neg hc] at h
    cases hs : score_candidates w candidates reference_genres with
    | error e => rw [hs] at h; cases h
    | ok ranked =>
      rw [hs] at h
      cases h
      rw [List.length_mergeSort]
      exact score_candidates_ok_length w candidates reference_genres ranked hs

/-- Witness for C7 at a concrete one-candidate run. -/
theorem C7_rank_length_witness :
    ([((13 : Score)/20, doc_a)] : List (Score × Document)).length =
      ([cand_a] : List Candidate).length :=
  C7_rank_length config_weights [cand_a] [] [((13 : Score)/20, doc_a)]
    (by norm_num [rank_candidates, score_candidates, score_loop,
      normalize_values, calculate_genre_overlap, config_weights, cand_a])

/-- Claim C8: calculate_genre_overlap is exactly the Jaccard similarity of
the corresponding sets with the 0.0 convention for an empty list on either
side, and the documented example evaluates to 0.5. -/
theorem C8_genre_overlap_jaccard :
    (∀ genres_a genres_b : List String,
      calculate_genre_overlap genres_a genres_b = jaccard_spec genres_a genres_b) ∧
    calculate_genre_overlap ["Action", "Adventure", "Comedy"]
      ["Action", "Adventure", "Drama"] = 1/2 ∧
    (∀ genres : List String,
      calculate_genre_overlap genres [] = 0 ∧
      calculate_genre_overlap [] genres = 0) := by
  refine ⟨?_, ?_, ?_⟩
  · intro a b
    by_cases h : a = [] ∨ b = []
    · simp only [calculate_genre_overlap, jaccard_spec, if_pos h]
    · push_neg at h
      obtain ⟨x, hx⟩ := List.exists_mem_of_ne_nil a h.1
      have hmem : x ∈ a.toFinset ∪ b.toFinset :=
        Finset.mem_union_left _ (List.mem_toFinset.mpr hx)
      have hpos : 0 < (a.toFinset ∪ b.toFinset).card :=
        Finset.card_pos.mpr ⟨x, hmem⟩
      simp only [calculate_genre_overlap, jaccard_spec,
        if_neg (by tauto : ¬(a = [] ∨ b = [])), if_pos hpos]
  · have h1 : (["Action", "Adventure", "Comedy"].toFinset ∩
        ["Action", "Adventure", "Drama"].toFinset).card = 2 := by decide
    have h2 : (["Action", "Adventure", "Comedy"].toFinset ∪
        ["Action", "Adventure", "Drama"].toFinset).card = 4 := by decide
    simp only [calculate_genre_overlap]
    rw [if_neg (by simp), h1, h2]
    norm_num
  · intro genres
    constructor
    · simp [calculate_genre_overlap]
    · simp [calculate_genre_overlap]

/-- Claim C9: the retriever keeps a candidate exactly for each returned
position below the corpus length, resolving it by Python list indexing, so a
negative position survives the filter and resolves from the end of the
corpus (position -1 is the last document), and positions at or beyond the
corpus length are dropped, which can leave fewer than min(k, corpus size)
candidates. -/
theorem C9_position_handling (documents : List Document)
    (index_search : List Score → Int → List (Int × Score))
    (query_vector : List Score) (k : Int)
    (hpos : ∀ p ∈ index_search query_vector (min k (documents.length : Int)),
      -(documents.length : Int) ≤ p.1) :
    (∃ res, search_similar documents index_search query_vector k = .ok res ∧
      List.Forall₂ (fun (p : Int × Score) (c : Candidate) =>
          python_get documents p.1 = some c.doc ∧ c.semantic = some p.2)
        ((index_search query_vector (min k (documents.length : Int))).filter
          (fun p => decide (p.1 < (documents.length : Int)))) res) ∧
    (∀ l : List Document, python_get l (-1) = l.getLast?) ∧
    search_similar [({} : Document)] (fun _ _ => [(1, 1)]) [] 5 = .ok [] := by
  refine ⟨?_, fun l => python_get_neg_one l, ?_⟩
  · exact gather_candidates_forall documents _ hpos
  · rfl

/-- Witness for C9 with an index returning the -1 sentinel and an
out-of-range position over a two-document corpus. -/
theorem C9_position_handling_witness :
    (∃ res, search_similar [doc_a, doc_b] index_oracle_neg [] 10 = .ok res ∧
      List.Forall₂ (fun (p : Int × Score) (c : Candidate) =>
          python_get [doc_a, doc_b] p.1 = some c.doc ∧ c.semantic = some p.2)
        ((index_oracle_neg []
            (min 10 (([doc_a, doc_b] : List Document).length : Int))).filter
          (fun p => decide (p.1 < (([doc_a, doc_b] : List Document).length : Int))))
        res) ∧
    (∀ l : List Document, python_get l (-1) = l.getLast?) ∧
    search_similar [({} : Document)] (fun _ _ => [(1, 1)]) [] 5 = .ok [] :=
  C9_position_handling [doc_a, doc_b] index_oracle_neg [] 10 (by decide)

/-- Claim C10: a candidate list containing a candidate without the
"semantic" key makes rank_candidates fail with KeyError "semantic", while
under the precondition that every candidate carries the key the function
always succeeds. -/
theorem C10_semantic_key_required (w : Weights) (candidates : List Candidate)
    (reference_genres : List String) :
    ((∃ c ∈ candidates, c.semantic = none) →
      rank_candidates w candidates reference_genres =
        .error (.keyError "semantic")) ∧
    ((∀ c ∈ candidates, c.semantic.isSome) →
      ∃ out, rank_candidates w candidates reference_genres = .ok out) := by
  constructor
  · rintro ⟨c, hc_mem, hc_none⟩
    have hne : candidates ≠ [] := by
      rintro rfl
      simp at hc_mem
    simp only [rank_candidates, if_neg hne]
    have herr : score_candidates w candidates reference_genres =
        .error (.keyError "semantic") := by
      simp only [score_candidates]
      apply score_loop_error_of_mem
      obtain ⟨b, hb⟩ := mem_zip_of_length_eq candidates
        ((normalize_values (candidates.map fun c => c.popularity.getD 0)).zip
          (normalize_values (candidates.map fun c => c.rating.getD 0)))
        (by rw [List.length_zip, normalize_values_length, normalize_values_length,
          List.length_map, List.length_map, min_self]) c hc_mem
      exact ⟨(c, b), hb, hc_none⟩
    rw [herr]
  · intro hall
    by_cases hc : candidates = []
    · subst hc
      exact ⟨[], by simp [rank_candidates]⟩
    · simp only [rank_candidates, if_neg hc, score_candidates]
      obtain ⟨out, hout⟩ := score_loop_ok_of_forall w reference_genres
        (candidates.zip
          ((normalize_values (candidates.map fun c => c.popularity.getD 0)).zip
            (normalize_values (candidates.map fun c => c.rating.getD 0))))
        (fun x hx => by
          obtain ⟨a, b⟩ := x
          exact hall a (List.of_mem_zip hx).1)
      rw [hout]
      exact ⟨_, rfl⟩

/-- Witness for C10: a concrete missing-key failure and a concrete
success. -/
theorem C10_semantic_key_required_witness :
    rank_candidates config_weights [cand_no_sem] [] =
      .error (.keyError "semantic") ∧
    ∃ out, rank_candidates config_weights [cand_a] [] = .ok out :=
  ⟨(C10_semantic_key_required config_weights [cand_no_sem] []).1
      ⟨cand_no_sem, List.mem_cons_self _ _, rfl⟩,
    (C10_semantic_key_required config_weights [cand_a] []).2 (by decide)⟩

end AnimeRec
